import Mathlib

/-!
Verification of the protocol engine of py_scripts/gui.py (class LiveWatchGUI).

The engine is shallowly embedded: each Python method relevant to the claims
is translated into a pure Lean function over an explicit state record.

Modelling conventions, stated once here:
* Timestamps are natural numbers; the expectation window of 3.0 seconds is
  the constant 3 (time.time() arithmetic on these values is exact).
* A message's path and type fields are modelled as optional strings
  (the protocol's paths and type tags are JSON strings).
* JSON values are the inductive Val; a parsed line is a RawLine, which is
  either malformed (json.loads raised), a well-formed non-object value
  (msg.get would raise AttributeError), or a message object.
* Python dicts keyed by paths are modelled as functions from Option String
  (msg.get of a missing path yields None, which can be used as a key);
  the schema cache, keyed by an arbitrary JSON value taken from the schema
  payload, is an association list where the most recent entry shadows
  older ones, which is extensionally Python's dict assignment.
* The serial link is the connected flag plus the list of written messages
  (wire); serialization of a message to its JSON text is not modelled,
  so "no bytes written" is rendered as "wire unchanged".
* GUI-only effects (logging, table rows, dialogs, timers that only redraw
  widgets) have no counterpart in the state record.
-/

/-- A JSON value as produced by json.loads: scalars, null, objects
(association lists in document order) and arrays. -/
inductive Val where
  | str (s : String)
  | num (n : Int)
  | boolean (b : Bool)
  | null
  | dict (fields : List (String × Val))
  | arr (elems : List Val)

/-- The message fields that _handle_message and _send ever read.  A field
holding none models a JSON object in which the key is absent; changes of
some Val.null models the key present with a null value (Python
distinguishes these via the in operator). -/
structure Msg where
  id : Option String := none
  type : Option String := none
  path : Option String := none
  value : Option Val := none
  changes : Option Val := none
  found : Option Val := none
  schema : Option Val := none

/-- One line handed from the reader thread to _handle_message, after
json.loads has been attempted on it. -/
inductive RawLine where
  | malformed
  | nonObject
  | msg (m : Msg)

/-- The mutable state of LiveWatchGUI that the protocol engine touches:
cache['states'], cache['history'], cache['schemas'], subscriptions,
expecting, the require-subscription checkbox, the serial link, and the
subscription list last written to gui_config.json. -/
structure EngineState where
  states : Option String → Option Val
  history : Option String → String → List (Nat × Val)
  schemas : List (Option Val × Val)
  subscriptions : List String
  expecting : Option String → Option Nat
  require : Bool
  connected : Bool
  wire : List Msg
  savedSubs : List String

/-- Python truthiness of a JSON value, as used by the test
if msg.get('found'). -/
def Val.truthy : Val → Bool
  | .str s => s ≠ ""
  | .num n => n ≠ 0
  | .boolean b => b
  | .null => false
  | .dict fields => !fields.isEmpty
  | .arr elems => !elems.isEmpty

/-- Truthiness of msg.get(k): a missing key yields None, which is falsy. -/
def truthyOpt : Option Val → Bool
  | none => false
  | some v => v.truthy

/-- Membership test name in self.subscriptions, where name may be None. -/
def pmem (p : Option String) (subs : List String) : Bool :=
  match p with
  | none => false
  | some n => decide (n ∈ subs)

/-- Lookup in a JSON object (first matching key, as keys of a parsed
object are unique). -/
def dget : List (String × Val) → String → Option Val
  | [], _ => none
  | (k', v) :: rest, k => if k' = k then some v else dget rest k

/-- Last entry for a key in a list of pairs: the value a Python dict built
from those pairs would hold, since later assignments win. -/
def lastLookup : List (String × Val) → String → Option Val
  | [], _ => none
  | (k', v) :: rest, k =>
    match lastLookup rest k with
    | some r => some r
    | none => if k' = k then some v else none

/-- Single-key assignment d[k] = v on an association list: replace the
first occurrence in place, else append, as a Python dict does. -/
def setKey : List (String × Val) → String → Val → List (String × Val)
  | [], k, v => [(k, v)]
  | (k', v') :: rest, k, v =>
    if k' = k then (k', v) :: rest else (k', v') :: setKey rest k v

/-- cur.update(payload): assign every pair of payload into cur in order. -/
def dictUpdate (cur payload : List (String × Val)) : List (String × Val) :=
  payload.foldl (fun acc kv => setKey acc kv.1 kv.2) cur

/-- The cache value produced by _merge_update_and_refresh (gui.py:521-533)
for the path being merged.  With replace=True the payload is stored
outright.  Otherwise cur = states.get(name, {}) is coerced to {} if it is
not a dict; a dict payload is update()d into cur, and a non-dict payload
replaces cur wholesale (the code comment calls this "scalar replace"). -/
def mergeCache (old : Option Val) (payload : Val) : Val :=
  match payload with
  | .dict ps =>
    match old with
    | some (.dict cs) => .dict (dictUpdate cs ps)
    | _ => .dict (dictUpdate [] ps)
  | _ => payload

/-- Cache value after the merge, covering both the replace=True and
replace=False branches. -/
def cacheAfter (old : Option Val) (payload : Val) (rep : Bool) : Val :=
  if rep then payload else mergeCache old payload

/-- History update of _merge_update_and_refresh (gui.py:535-540): for each
pair of a dict payload, in order, append (now, v) to the field's list. -/
def histAppend (h : String → List (Nat × Val)) (now : Nat) :
    List (String × Val) → (String → List (Nat × Val))
  | [] => h
  | (k, v) :: rest =>
    histAppend (fun f => if f = k then h f ++ [(now, v)] else h f) now rest

/-- Engine-state effect of _merge_update_and_refresh(name, payload,
replace): store the merged cache value and, when the payload is a dict,
append one history entry per payload pair.  A non-dict payload appends no
history. -/
def mergeUpdate (s : EngineState) (now : Nat) (name : Option String)
    (payload : Val) (rep : Bool) : EngineState :=
  let newVal := cacheAfter (s.states name) payload rep
  let states' := fun k => if k = name then some newVal else s.states k
  match payload with
  | .dict ps =>
    { s with states := states',
             history := fun q =>
               if q = name then histAppend (s.history name) now ps
               else s.history q }
  | _ => { s with states := states' }

/-- Removal of an expecting entry (del self.expecting[name], guarded by a
membership test, which is extensionally an unconditional erase). -/
def eraseExp (s : EngineState) (name : Option String) : EngineState :=
  { s with expecting := fun k => if k = name then none else s.expecting k }

/-- The rejection test for inbound update messages (gui.py:1324-1330):
require and name not in self.subscriptions and expected_until < now,
where expected_until = self.expecting.get(name, 0). -/
def ignoreUnsolicited (s : EngineState) (now : Nat) (name : Option String) : Bool :=
  s.require && !(pmem name s.subscriptions) &&
    decide ((s.expecting name).getD 0 < now)

/-- Effect of an admitted update carrying changes (gui.py:1331-1339): the
expecting entry for the path is deleted, then the changes are merged with
replace=False. -/
def applyUpd (s : EngineState) (now : Nat) (name : Option String) (c : Val) :
    EngineState :=
  mergeUpdate (eraseExp s name) now name c false

/-- Kinds of inbound message the dispatcher recognizes (gui.py:1266-1342);
every other type string falls into the final ignore branch. -/
def recognizedKinds : List String :=
  ["discover.response", "subscribe.response", "unsubscribe.response",
   "state", "update"]

/-- The dispatcher _handle_message (gui.py:1258-1342) for one parsed line,
given the current time.  The result none models an exception escaping
_handle_message (to be swallowed by _process_incoming): a non-object JSON
line, or a discover.response whose schema payload is not an object, so
that s.get('name') raises.  All other branches return the updated state:
 * malformed JSON: logged and dropped;
 * discover.response: when found is truthy and a schema object is present,
   cache it under its declared name (display updates are GUI-only);
 * subscribe.response: display updates only;
 * unsubscribe.response: remove the path from subscriptions and delete its
   expecting entry;
 * state: a value field is merged with replace=True, else a changes field
   is merged with replace=False, else nothing;
 * update: admission check, then merge changes (deleting the expecting
   entry first) when a changes field is present;
 * anything else: ignored. -/
def handleMsg (s : EngineState) (now : Nat) (line : RawLine) :
    Option EngineState :=
  match line with
  | .malformed => some s
  | .nonObject => none
  | .msg m =>
    if m.type = some "discover.response" then
      if truthyOpt m.found then
        match m.schema with
        | none => some s
        | some (.dict d) =>
          some { s with schemas := (dget d "name", .dict d) :: s.schemas }
        | some _ => none
      else some s
    else if m.type = some "subscribe.response" then some s
    else if m.type = some "unsubscribe.response" then
      some { s with
        subscriptions :=
          match m.path with
          | some n => s.subscriptions.filter (fun x => x ≠ n)
          | none => s.subscriptions,
        expecting := fun k => if k = m.path then none else s.expecting k }
    else if m.type = some "state" then
      match m.value with
      | some v => some (mergeUpdate s now m.path v true)
      | none =>
        match m.changes with
        | some c => some (mergeUpdate s now m.path c false)
        | none => some s
    else if m.type = some "update" then
      if ignoreUnsolicited s now m.path then some s
      else
        match m.changes with
        | some c => some (applyUpd s now m.path c)
        | none => some s
    else some s

/-- One iteration of the drain loop in _process_incoming (gui.py:1243-1256):
any exception from _handle_message is swallowed and the state kept. -/
def processLine (s : EngineState) (now : Nat) (line : RawLine) : EngineState :=
  (handleMsg s now line).getD s

/-- The drain loop over one batch of queued lines. -/
def processIncoming (s : EngineState) (now : Nat) (lines : List RawLine) :
    EngineState :=
  lines.foldl (fun st l => processLine st now l) s

/-- The command emitter _send (gui.py:1390-1407).  With no open link it
only logs: no line is written and nothing else changes.  Otherwise the
message is written and, when it is a discover, get or subscribe carrying a
truthy path, self.expecting[path] = time.time() + 3.0. -/
def send (s : EngineState) (now : Nat) (m : Msg) : EngineState :=
  if s.connected = false then s
  else
    let s1 := { s with wire := s.wire ++ [m] }
    match m.type, m.path with
    | some t, some p =>
      if (t = "discover" ∨ t = "get" ∨ t = "subscribe") ∧ p ≠ "" then
        { s1 with expecting := fun k =>
            if k = some p then some (now + 3) else s1.expecting k }
      else s1
    | _, _ => s1

/-- self.subscriptions.add(name) on the list-modelled set. -/
def addSub (l : List String) (n : String) : List String :=
  if n ∈ l then l else l ++ [n]

/-- The subscribe request built by on_subscribe. -/
def subscribeMsg (n : String) : Msg :=
  { id := some ("sub-" ++ n), type := some "subscribe", path := some n }

/-- The discover request built by on_subscribe. -/
def discoverMsg (n : String) : Msg :=
  { id := some ("discover-" ++ n), type := some "discover", path := some n }

/-- The on_subscribe handler (gui.py:1357-1370) for a typed-in name: an
empty name only shows a warning box; otherwise the name is added to
subscriptions, the subscribe request is sent, the config (whose
subscription list we model) is saved, and a discover request is sent.
The follow-up get request is issued 100ms later by a one-shot timer and
is not part of this synchronous call. -/
def on_subscribe (s : EngineState) (now : Nat) (name : String) : EngineState :=
  if name = "" then s
  else
    let s1 := { s with subscriptions := addSub s.subscriptions name }
    let s2 := send s1 now (subscribeMsg name)
    let s3 := { s2 with savedSubs := s2.subscriptions }
    send s3 now (discoverMsg name)

/-- Whitespace in the sense of str.strip() (the ASCII whitespace
characters; the trimmed lines of this protocol are ASCII JSON text). -/
def isPySpace (c : Char) : Bool :=
  c = ' ' ∨ c = '\t' ∨ c = '\n' ∨ c = '\r' ∨ c = '\x0b' ∨ c = '\x0c'

/-- Drop leading whitespace characters. -/
def dropWS : List Char → List Char
  | [] => []
  | c :: cs => if isPySpace c then dropWS cs else c :: cs

/-- buf.strip(): drop leading and trailing whitespace. -/
def pyStrip (l : List Char) : List Char :=
  (dropWS (dropWS l).reverse).reverse

/-- One decoded character of the reader loop _reader (gui.py:1229-1241):
a newline strips the buffer and emits it when non-empty; any other
character is appended, and a buffer that has grown beyond 4000 characters
is discarded. -/
def readerStep (buf : List Char) (c : Char) : List Char × List (List Char) :=
  if c = '\n' then
    let line := pyStrip buf
    ([], if line.isEmpty then [] else [line])
  else
    let buf' := buf ++ [c]
    if 4000 < buf'.length then ([], []) else (buf', [])

/-- The reader loop run over a sequence of decoded characters, returning
the final buffer and the emitted lines in order. -/
def readerRun (buf : List Char) : List Char → List Char × List (List Char)
  | [] => (buf, [])
  | c :: cs =>
    let res := readerStep buf c
    let rec' := readerRun res.1 cs
    (rec'.1, res.2 ++ rec'.2)

/-- Lines framed from one connection's input, starting from the empty
buffer a fresh _reader begins with. -/
def framer (input : List Char) : List (List Char) := (readerRun [] input).2

/-- Timers scheduled for the queued startup requests (gui.py:1160-1168):
delay starts at 50 and advances by 50 per queued item; discover and get
items each get one timer at the current delay. -/
def schedulePending (delay : Nat) :
    List (String × String) → List (Nat × String × String)
  | [] => []
  | (t, n) :: rest =>
    (if t = "discover" then [(delay, "discover", n)]
     else if t = "get" then [(delay, "get", n)] else [])
    ++ schedulePending (delay + 50) rest

/-- Timers scheduled for the restored subscriptions (gui.py:1172-1183):
delay restarts at 50; each name gets subscribe, discover and get timers at
delay, delay+30 and delay+80, and delay advances by 80. -/
def scheduleSubs (delay : Nat) : List String → List (Nat × String × String)
  | [] => []
  | n :: rest =>
    (delay, "subscribe", n) :: (delay + 30, "discover", n) ::
      (delay + 80, "get", n) :: scheduleSubs (delay + 80) rest

/-- Timers scheduled for the builtin objects (gui.py:1185-1197): delay
starts at 30; names whose schema is already cached are skipped without
advancing the delay; the others get discover and get timers at delay and
delay+40, and delay advances by 60. -/
def scheduleBuiltins (schemaKnown : String → Bool) (delay : Nat) :
    List String → List (Nat × String × String)
  | [] => []
  | n :: rest =>
    if schemaKnown n then scheduleBuiltins schemaKnown delay rest
    else (delay, "discover", n) :: (delay + 40, "get", n) ::
      scheduleBuiltins schemaKnown (delay + 60) rest

/-- All timers created by connect (gui.py:1158-1197) for one reconnect
burst, in the order the requests were submitted: queued startup requests,
then restored subscriptions, then the builtin objects laser and plasma. -/
def connectSchedule (pending : List (String × String)) (subs : List String)
    (schemaKnown : String → Bool) : List (Nat × String × String) :=
  schedulePending 50 pending ++ scheduleSubs 50 subs
    ++ scheduleBuiltins schemaKnown 30 ["laser", "plasma"]

/-- Delays of a schedule, in submission order. -/
def delaysOf (l : List (Nat × String × String)) : List Nat := l.map (·.1)

/-- A list of delays is strictly increasing. -/
def strictInc : List Nat → Bool
  | [] => true
  | [_] => true
  | a :: b :: rest => decide (a < b) && strictInc (b :: rest)

/-- A list of delays is non-decreasing. -/
def nonDec : List Nat → Bool
  | [] => true
  | [_] => true
  | a :: b :: rest => decide (a ≤ b) && nonDec (b :: rest)

/-- A state-cache operation on one path: a full snapshot (state message
with a value field, replayed with replace=True) or a mapping-valued delta
(state or admitted update message with a changes field, replayed with
replace=False). -/
inductive StMsg where
  | replace (v : Val)
  | delta (c : List (String × Val))

/-- Effect of one operation on the cached value of the path, as computed
by _merge_update_and_refresh. -/
def applyStMsg (old : Option Val) : StMsg → Option Val
  | .replace v => some (cacheAfter old v true)
  | .delta c => some (cacheAfter old (.dict c) false)

/-- Replaying a sequence of snapshot/delta operations through the merge
code, starting from the cached value old (none when the path is absent). -/
def replay (old : Option Val) (msgs : List StMsg) : Option Val :=
  msgs.foldl applyStMsg old

/-- Field lookup on a cached value; a non-mapping or absent value has no
fields. -/
def valGet (o : Option Val) (k : String) : Option Val :=
  match o with
  | some (.dict d) => dget d k
  | _ => none

/-- Specification-side semantics, following the spec's words: the
effective last write to a field, scanning the arrival-ordered operations
so that the latest write wins.  A delta writes the fields of its changes
(within one delta, later pairs win, as in a JSON object); a full snapshot
determines every field — fields it lists get its value, all others become
absent.  The outer none means no operation touched the field, so the
initial value shows through. -/
def specLastWrite : List StMsg → String → Option (Option Val)
  | [], _ => none
  | m :: rest, k =>
    match specLastWrite rest k with
    | some r => some r
    | none =>
      match m with
      | .replace v => some (valGet (some v) k)
      | .delta c => (lastLookup c k).map some

/-- Specification-side admission predicate for C1, following the claim's
words: with strict filtering on, an update for path p is accepted iff p is
subscribed or an expectation entry for p was noted less than the window
length before processing, i.e. its expiry (note time + 3) is strictly
greater than now. -/
def specAdmitStrict (s : EngineState) (now : Nat) (p : Option String) : Prop :=
  pmem p s.subscriptions = true ∨ ∃ e, s.expecting p = some e ∧ now < e

theorem dget_setKey_same (cs : List (String × Val)) (k : String) (v : Val) :
    dget (setKey cs k v) k = some v := by
  induction cs with
  | nil => simp [setKey, dget]
  | cons p rest ih =>
    obtain ⟨k', v'⟩ := p
    by_cases h : k' = k
    · simp [setKey, h, dget]
    · simp [setKey, h, dget, ih]

theorem dget_setKey_ne (cs : List (String × Val)) (k : String) (v : Val)
    (k' : String) (h : k' ≠ k) : dget (setKey cs k v) k' = dget cs k' := by
  induction cs with
  | nil => simp [setKey, dget, Ne.symm h]
  | cons p rest ih =>
    obtain ⟨k0, v0⟩ := p
    by_cases h0 : k0 = k
    · subst h0
      simp [setKey, dget, Ne.symm h]
    · simp [setKey, h0, dget, ih]

theorem dget_dictUpdate (ps : List (String × Val)) (cs : List (String × Val))
    (k : String) :
    dget (dictUpdate cs ps) k =
      match lastLookup ps k with
      | some v => some v
      | none => dget cs k := by
  induction ps generalizing cs with
  | nil => simp [dictUpdate, lastLookup]
  | cons p rest ih =>
    obtain ⟨k1, v1⟩ := p
    have hstep : dictUpdate cs ((k1, v1) :: rest) = dictUpdate (setKey cs k1 v1) rest := by
      simp [dictUpdate]
    rw [hstep, ih]
    cases hl : lastLookup rest k with
    | some r => simp [lastLookup, hl]
    | none =>
      by_cases hk : k1 = k
      · subst hk
        simp [lastLookup, hl, dget_setKey_same]
      · simp [lastLookup, hl, hk, dget_setKey_ne cs k1 v1 k (fun hh => hk hh.symm)]

theorem lastLookup_eq_none (ps : List (String × Val)) (k : String)
    (h : k ∉ ps.map Prod.fst) : lastLookup ps k = none := by
  induction ps with
  | nil => rfl
  | cons p rest ih =>
    obtain ⟨k1, v1⟩ := p
    simp only [List.map_cons, List.mem_cons] at h
    push_neg at h
    simp [lastLookup, ih h.2, Ne.symm h.1]

theorem cacheAfter_false (old : Option Val) (payload : Val) :
    cacheAfter old payload false = mergeCache old payload := rfl

theorem cacheAfter_true (old : Option Val) (payload : Val) :
    cacheAfter old payload true = payload := rfl

theorem mergeCache_not_dict (old : Option Val) (c : List (String × Val))
    (h : ∀ cs, old ≠ some (Val.dict cs)) :
    mergeCache old (.dict c) = .dict (dictUpdate [] c) := by
  rcases old with _ | v
  · rfl
  · cases v with
    | dict cs => exact absurd rfl (h cs)
    | str a => rfl
    | num a => rfl
    | boolean a => rfl
    | null => rfl
    | arr a => rfl

theorem valGet_not_dict (old : Option Val) (k : String)
    (h : ∀ cs, old ≠ some (Val.dict cs)) : valGet old k = none := by
  rcases old with _ | v
  · rfl
  · cases v with
    | dict cs => exact absurd rfl (h cs)
    | str a => rfl
    | num a => rfl
    | boolean a => rfl
    | null => rfl
    | arr a => rfl

theorem valGet_delta (init : Option Val) (c : List (String × Val)) (k : String) :
    valGet (applyStMsg init (.delta c)) k =
      match lastLookup c k with
      | some v => some v
      | none => valGet init k := by
  have hbase : ∀ cs : List (String × Val),
      dget (dictUpdate cs c) k =
        match lastLookup c k with
        | some v => some v
        | none => dget cs k := fun cs => dget_dictUpdate c cs k
  have happ : applyStMsg init (.delta c) = some (mergeCache init (.dict c)) := by
    simp [applyStMsg, cacheAfter_false]
  by_cases hd : ∃ cs, init = some (Val.dict cs)
  · obtain ⟨cs, rfl⟩ := hd
    rw [happ]
    simp only [mergeCache, valGet]
    exact hbase cs
  · push_neg at hd
    rw [happ, mergeCache_not_dict init c hd]
    simp only [valGet, valGet_not_dict init k hd]
    rw [hbase []]
    cases lastLookup c k <;> simp [dget]

theorem replay_lastWrite (msgs : List StMsg) (init : Option Val) (k : String) :
    valGet (replay init msgs) k = (specLastWrite msgs k).getD (valGet init k) := by
  induction msgs generalizing init with
  | nil => simp [replay, specLastWrite]
  | cons m rest ih =>
    have hstep : replay init (m :: rest) = replay (applyStMsg init m) rest := by
      simp [replay]
    rw [hstep, ih]
    cases hl : specLastWrite rest k with
    | some r => simp [specLastWrite, hl]
    | none =>
      cases m with
      | replace v => simp [specLastWrite, hl, applyStMsg, cacheAfter]
      | delta c =>
        rw [valGet_delta]
        cases hc : lastLookup c k <;> simp [specLastWrite, hl, hc]

/-- C2: State-merge semantics of _merge_update_and_refresh.  (i) Replaying
any sequence of full-snapshot replaces and mapping-valued delta merges
yields, on every field, the effective last write of the arrival-ordered
sequence (last-write-wins per field; a snapshot determines every field),
falling back to the initial cached value when untouched.  (ii) Re-applying
an already-applied full snapshot is idempotent on the cached value.
(iii) A delta merge never removes or nulls fields absent from changes.
(iv) A replace always leaves the cached value equal to the given full
value.  (v) A delta merge onto an absent entry or onto a cached
non-mapping value treats the existing object as an empty mapping. -/
theorem C2_merge_semantics :
    (∀ (init : Option Val) (msgs : List StMsg) (k : String),
       valGet (replay init msgs) k = (specLastWrite msgs k).getD (valGet init k))
  ∧ (∀ (o : Option Val) (v : Val) (rest : List StMsg),
       replay o (.replace v :: .replace v :: rest) = replay o (.replace v :: rest))
  ∧ (∀ (cs ps : List (String × Val)) (k : String),
       k ∉ ps.map Prod.fst →
       valGet (applyStMsg (some (.dict cs)) (.delta ps)) k = dget cs k)
  ∧ (∀ (o : Option Val) (v : Val), applyStMsg o (.replace v) = some v)
  ∧ (∀ (old : Val) (ps : List (String × Val)),
       (∀ d, old ≠ Val.dict d) →
       applyStMsg (some old) (.delta ps) = applyStMsg none (.delta ps)) := by
  refine ⟨?_, ?_, ?_, ?_, ?_⟩
  · intro init msgs k
    exact replay_lastWrite msgs init k
  · intro o v rest
    simp [replay, applyStMsg, cacheAfter_true]
  · intro cs ps k hk
    rw [valGet_delta, lastLookup_eq_none ps k hk]
    rfl
  · intro o v
    simp [applyStMsg, cacheAfter_true]
  · intro old ps h
    have h1 : mergeCache (some old) (.dict ps) = .dict (dictUpdate [] ps) :=
      mergeCache_not_dict (some old) ps (by intro cs hc; exact h cs (by injection hc))
    have h2 : mergeCache none (.dict ps) = .dict (dictUpdate [] ps) :=
      mergeCache_not_dict none ps (by intro cs hc; cases hc)
    simp [applyStMsg, cacheAfter_false, h1, h2]

/-- C2 witness: concrete instances of the quantified conjuncts, with every
hypothesis discharged at the concrete input. -/
theorem C2_merge_semantics_witness :
    (valGet (replay none [StMsg.delta [("a", Val.num 1)]]) "a"
       = (specLastWrite [StMsg.delta [("a", Val.num 1)]] "a").getD
           (valGet none "a"))
  ∧ (valGet (applyStMsg (some (.dict [("a", Val.num 1)]))
        (.delta [("b", Val.num 2)])) "a" = dget [("a", Val.num 1)] "a")
  ∧ (applyStMsg (some (Val.num 7)) (.delta [("b", Val.num 2)])
       = applyStMsg none (.delta [("b", Val.num 2)])) :=
  ⟨C2_merge_semantics.1 none [StMsg.delta [("a", Val.num 1)]] "a",
   C2_merge_semantics.2.2.1 [("a", Val.num 1)] [("b", Val.num 2)] "a" (by simp),
   C2_merge_semantics.2.2.2.2 (Val.num 7) [("b", Val.num 2)]
     (by intro d h; cases h)⟩

/-- A fresh engine state: empty caches, no subscriptions, strict filtering
on (the checkbox default), link closed. -/
def emptyState : EngineState where
  states := fun _ => none
  history := fun _ _ => []
  schemas := []
  subscriptions := []
  expecting := fun _ => none
  require := true
  connected := false
  wire := []
  savedSubs := []

/-- State for the C1 counterexample: strict filtering on, laser not
subscribed, an expectation entry for laser whose expiry (note time + 3)
equals the processing time 10, i.e. noted exactly the window length
earlier. -/
def c1exState : EngineState where
  states := fun _ => none
  history := fun _ _ => []
  schemas := []
  subscriptions := []
  expecting := fun k => if k = some "laser" then some 10 else none
  require := true
  connected := true
  wire := []
  savedSubs := []

/-- An update for laser carrying a changes mapping. -/
def c1exLine : RawLine :=
  .msg { type := some "update", path := some "laser",
         changes := some (Val.dict [("power", Val.num 7)]) }

/-- C1 counterexample: the claim admits an update (with strict filtering
on) only when the path is subscribed or its expectation entry was noted
less than 3 time units earlier, i.e. expiry strictly after now.  At expiry
equal to now the claim demands rejection with no cache change, but the
code (expected_until < now at gui.py:1328) accepts the update and writes
the cache. -/
theorem C1_admission_counterexample :
    ¬ specAdmitStrict c1exState 10 (some "laser")
    ∧ (processLine c1exState 10 c1exLine).states (some "laser")
        = some (Val.dict [("power", Val.num 7)])
    ∧ c1exState.states (some "laser") = none := by
  refine ⟨?_, ?_, rfl⟩
  · rintro (hpm | ⟨e, he, hlt⟩)
    · simp [c1exState, pmem] at hpm
    · simp [c1exState] at he
      omega
  · simp [processLine, handleMsg, c1exLine, ignoreUnsolicited, c1exState, pmem,
          applyUpd, mergeUpdate, eraseExp, cacheAfter, mergeCache, dictUpdate,
          setKey]

/-- C1 amended: with strict filtering on, an update for path p is admitted
iff p is subscribed or an expectation entry for p has expiry at least the
processing time (i.e. it was noted at most — not strictly less than — the
window length of 3 time units earlier); a rejected update leaves the whole
state (cache and history included) unchanged; with strict filtering off
every update is admitted, and an admitted update with changes performs
exactly the delta merge after consuming the expectation entry. -/
theorem C1_admission_amended (s : EngineState) (now : Nat) (p : Option String)
    (hpos : 0 < now) :
    (s.require = true →
      (ignoreUnsolicited s now p = false ↔
        pmem p s.subscriptions = true ∨ ∃ e, s.expecting p = some e ∧ now ≤ e))
  ∧ (s.require = false → ignoreUnsolicited s now p = false)
  ∧ (∀ m : Msg, m.type = some "update" → m.path = p →
      ignoreUnsolicited s now p = true → handleMsg s now (.msg m) = some s)
  ∧ (∀ c : Val, ignoreUnsolicited s now p = false →
      handleMsg s now
          (.msg { type := some "update", path := p, changes := some c })
        = some (applyUpd s now p c)) := by
  refine ⟨?_, ?_, ?_, ?_⟩
  · intro hreq
    constructor
    · intro h
      cases hpm : pmem p s.subscriptions with
      | true => exact Or.inl rfl
      | false =>
        right
        rw [ignoreUnsolicited, hreq, hpm] at h
        simp at h
        cases hexp : s.expecting p with
        | none =>
          rw [hexp] at h
          simp at h
          omega
        | some e =>
          rw [hexp] at h
          exact ⟨e, rfl, by simpa using h⟩
    · intro h
      rcases h with hpm | ⟨e, he, hle⟩
      · simp [ignoreUnsolicited, hpm]
      · cases hpm : pmem p s.subscriptions with
        | true => simp [ignoreUnsolicited, hpm]
        | false =>
          simp [ignoreUnsolicited, hreq, hpm, he]
          omega
  · intro hreq
    simp [ignoreUnsolicited, hreq]
  · intro m hty hpath hig
    simp [handleMsg, hty, hpath, hig]
  · intro c hig
    simp [handleMsg, hig]

/-- State for the C1 witness: laser subscribed, strict filtering on. -/
def c1wState : EngineState where
  states := fun _ => none
  history := fun _ _ => []
  schemas := []
  subscriptions := ["laser"]
  expecting := fun _ => none
  require := true
  connected := true
  wire := []
  savedSubs := []

/-- C1 witness: the amended admission characterization and the admitted
merge, at a concrete state and time. -/
theorem C1_admission_amended_witness :
    (ignoreUnsolicited c1wState 5 (some "laser") = false ↔
      pmem (some "laser") c1wState.subscriptions = true ∨
        ∃ e, c1wState.expecting (some "laser") = some e ∧ 5 ≤ e)
  ∧ handleMsg c1wState 5
        (.msg { type := some "update", path := some "laser",
                changes := some Val.null })
      = some (applyUpd c1wState 5 (some "laser") Val.null) :=
  ⟨(C1_admission_amended c1wState 5 (some "laser") (by decide)).1 rfl,
   (C1_admission_amended c1wState 5 (some "laser") (by decide)).2.2.2
     Val.null (by decide)⟩

/-- A state message carrying only a changes payload. -/
def stateChangesLine (p : Option String) (c : Val) : RawLine :=
  .msg { type := some "state", path := p, changes := some c }

/-- An update message carrying a changes payload. -/
def updateChangesLine (p : Option String) (c : Val) : RawLine :=
  .msg { type := some "update", path := p, changes := some c }

theorem mergeCache_payload_not_dict (old : Option Val) (c : Val)
    (hc : ∀ d, c ≠ Val.dict d) : mergeCache old c = c := by
  cases c with
  | dict d => exact absurd rfl (hc d)
  | str a => rfl
  | num a => rfl
  | boolean a => rfl
  | null => rfl
  | arr a => rfl

theorem mergeUpdate_not_dict (s : EngineState) (now : Nat)
    (name : Option String) (c : Val) (rep : Bool) (hc : ∀ d, c ≠ Val.dict d) :
    mergeUpdate s now name c rep =
      { s with states := fun k =>
          if k = name then some (cacheAfter (s.states name) c rep)
          else s.states k } := by
  cases c with
  | dict d => exact absurd rfl (hc d)
  | str a => rfl
  | num a => rfl
  | boolean a => rfl
  | null => rfl
  | arr a => rfl

/-- State for the C3 counterexample: laser cached as a mapping. -/
def c3exState : EngineState where
  states := fun k =>
    if k = some "laser" then some (Val.dict [("power", Val.num 1)]) else none
  history := fun _ _ => []
  schemas := []
  subscriptions := []
  expecting := fun _ => none
  require := true
  connected := true
  wire := []
  savedSubs := []

/-- C3 counterexample: a recognized state message whose changes payload is
the non-mapping 5 is, per the claim, malformed and dropped with the cache
byte-for-byte unchanged; the code instead replaces the cached mapping for
laser with the scalar 5 (the "scalar replace" branch at gui.py:530-532). -/
theorem C3_nonmapping_changes_counterexample :
    (processLine c3exState 7
        (stateChangesLine (some "laser") (Val.num 5))).states (some "laser")
      = some (Val.num 5)
    ∧ c3exState.states (some "laser") = some (Val.dict [("power", Val.num 1)])
    ∧ Val.num 5 ≠ Val.dict [("power", Val.num 1)] := by
  refine ⟨?_, rfl, by simp⟩
  simp [processLine, handleMsg, stateChangesLine, c3exState, mergeUpdate,
        cacheAfter, mergeCache]

/-- C3 amended: a recognized state or update message whose changes payload
is not a mapping is not dropped: the cached entry for its path is replaced
wholesale by the non-mapping payload, other paths are untouched, and no
history entries are appended (the history log is unchanged). -/
theorem C3_nonmapping_changes_amended (s : EngineState) (now : Nat)
    (p : Option String) (c : Val) (hc : ∀ d, c ≠ Val.dict d) :
    ((processLine s now (stateChangesLine p c)).states p = some c
     ∧ (processLine s now (stateChangesLine p c)).history = s.history
     ∧ ∀ q, q ≠ p → (processLine s now (stateChangesLine p c)).states q
         = s.states q)
  ∧ (ignoreUnsolicited s now p = false →
      (processLine s now (updateChangesLine p c)).states p = some c
      ∧ (processLine s now (updateChangesLine p c)).history = s.history) := by
  have h1 : processLine s now (stateChangesLine p c) = mergeUpdate s now p c false := by
    simp [processLine, handleMsg, stateChangesLine]
  constructor
  · rw [h1, mergeUpdate_not_dict s now p c false hc]
    refine ⟨?_, rfl, ?_⟩
    · simp [cacheAfter_false, mergeCache_payload_not_dict (s.states p) c hc]
    · intro q hq
      simp [hq]
  · intro hig
    have h2 : processLine s now (updateChangesLine p c) = applyUpd s now p c := by
      simp [processLine, handleMsg, updateChangesLine, hig]
    rw [h2, applyUpd, mergeUpdate_not_dict (eraseExp s p) now p c false hc]
    constructor
    · simp [eraseExp, cacheAfter_false,
            mergeCache_payload_not_dict (s.states p) c hc]
    · rfl

/-- C3 witness: the amended behavior at a concrete state, path and scalar
payload, with the hypotheses discharged there. -/
theorem C3_nonmapping_changes_amended_witness :
    (processLine emptyState 0
        (stateChangesLine (some "laser") (Val.num 5))).states (some "laser")
      = some (Val.num 5)
    ∧ (processLine emptyState 0
        (updateChangesLine (some "laser") (Val.num 5))).history
      = emptyState.history :=
  ⟨(C3_nonmapping_changes_amended emptyState 0 (some "laser") (Val.num 5)
      (by intro d h; cases h)).1.1,
   ((C3_nonmapping_changes_amended emptyState 0 (some "laser") (Val.num 5)
      (by intro d h; cases h)).2 (by decide)).2⟩

/-- A state message carrying a full value payload. -/
def stateValueLine (p : Option String) (v : Val) : RawLine :=
  .msg { type := some "state", path := p, value := some v }

/-- Processing a timeline of lines, each at the tick time it is drained. -/
def processTimeline (s : EngineState) : List (Nat × RawLine) → EngineState
  | [] => s
  | (t, l) :: rest => processTimeline (processLine s t l) rest

theorem histAppend_filter (ps : List (String × Val))
    (h : String → List (Nat × Val)) (now : Nat) (f : String) :
    histAppend h now ps f
      = h f ++ (ps.filter (fun kv => kv.1 = f)).map (fun kv => (now, kv.2)) := by
  induction ps generalizing h with
  | nil => simp [histAppend]
  | cons kv rest ih =>
    obtain ⟨k, v⟩ := kv
    by_cases hf : f = k
    · subst hf
      simp only [histAppend, ih, List.filter_cons]
      simp [List.append_assoc]
    · simp only [histAppend, ih, List.filter_cons]
      simp [hf, Ne.symm hf]

theorem filter_key_eq_nil (ps : List (String × Val)) (f : String)
    (h : f ∉ ps.map Prod.fst) : ps.filter (fun kv => kv.1 = f) = [] := by
  induction ps with
  | nil => rfl
  | cons kv rest ih =>
    obtain ⟨k, v⟩ := kv
    simp only [List.map_cons, List.mem_cons] at h
    push_neg at h
    simp [List.filter_cons, Ne.symm h.1, ih h.2]

theorem filter_key_eq_single (ps : List (String × Val)) (f : String) (v : Val)
    (hnd : (ps.map Prod.fst).Nodup) (hv : (f, v) ∈ ps) :
    ps.filter (fun kv => kv.1 = f) = [(f, v)] := by
  induction ps with
  | nil => cases hv
  | cons kv rest ih =>
    obtain ⟨k, w⟩ := kv
    simp only [List.map_cons, List.nodup_cons] at hnd
    rcases List.mem_cons.mp hv with heq | hmem
    · cases heq
      simp [List.filter_cons, filter_key_eq_nil rest f hnd.1]
    · have hkf : k ≠ f := by
        intro hk
        subst hk
        exact hnd.1 (List.mem_map.mpr ⟨(k, v), hmem, rfl⟩)
      simp [List.filter_cons, hkf, ih hnd.2 hmem]

theorem filter_key_length (ps : List (String × Val)) (f : String)
    (hnd : (ps.map Prod.fst).Nodup) :
    (ps.filter (fun kv => kv.1 = f)).length
      = if f ∈ ps.map Prod.fst then 1 else 0 := by
  by_cases hf : f ∈ ps.map Prod.fst
  · obtain ⟨⟨k, v⟩, hmem, hk⟩ := List.mem_map.mp hf
    simp only at hk
    subst hk
    rw [filter_key_eq_single ps _ v hnd hmem]
    simp [hf]
  · rw [filter_key_eq_nil ps f hf]
    simp [hf]

theorem mergeUpdate_dict_history (s : EngineState) (now : Nat)
    (name : Option String) (ps : List (String × Val)) (rep : Bool) :
    (mergeUpdate s now name (Val.dict ps) rep).history
      = fun q => if q = name then histAppend (s.history name) now ps
                 else s.history q := rfl

theorem mergeUpdate_subscriptions (s : EngineState) (now : Nat)
    (name : Option String) (payload : Val) (rep : Bool) :
    (mergeUpdate s now name payload rep).subscriptions = s.subscriptions := by
  cases payload <;> rfl

theorem applyUpd_subscriptions (s : EngineState) (now : Nat)
    (name : Option String) (c : Val) :
    (applyUpd s now name c).subscriptions = s.subscriptions := by
  cases c <;> rfl

theorem mergeUpdate_dict_history_len (s : EngineState) (now : Nat)
    (name : Option String) (ps : List (String × Val)) (rep : Bool) (f : String)
    (hnd : (ps.map Prod.fst).Nodup) :
    ((mergeUpdate s now name (Val.dict ps) rep).history name f).length
      = (s.history name f).length
        + (if f ∈ ps.map Prod.fst then 1 else 0) := by
  rw [mergeUpdate_dict_history]
  simp [histAppend_filter, filter_key_length ps f hnd]

theorem handleMsg_discover_eq (s : EngineState) (now : Nat) (m : Msg)
    (h1 : m.type = some "discover.response") :
    handleMsg s now (.msg m)
      = if truthyOpt m.found then
          match m.schema with
          | none => some s
          | some (.dict d) =>
            some { s with schemas := (dget d "name", .dict d) :: s.schemas }
          | some _ => none
        else some s := by
  simp [handleMsg, h1]

theorem handleMsg_subresp_eq (s : EngineState) (now : Nat) (m : Msg)
    (h1 : m.type = some "subscribe.response") :
    handleMsg s now (.msg m) = some s := by
  simp [handleMsg, h1]

theorem handleMsg_unsubresp_eq (s : EngineState) (now : Nat) (m : Msg)
    (h1 : m.type = some "unsubscribe.response") :
    handleMsg s now (.msg m)
      = some { s with
          subscriptions :=
            match m.path with
            | some n => s.subscriptions.filter (fun x => x ≠ n)
            | none => s.subscriptions,
          expecting := fun k => if k = m.path then none else s.expecting k } := by
  simp [handleMsg, h1]

theorem handleMsg_state_eq (s : EngineState) (now : Nat) (m : Msg)
    (h1 : m.type = some "state") :
    handleMsg s now (.msg m)
      = match m.value with
        | some v => some (mergeUpdate s now m.path v true)
        | none =>
          match m.changes with
          | some c => some (mergeUpdate s now m.path c false)
          | none => some s := by
  simp [handleMsg, h1]

theorem handleMsg_update_eq (s : EngineState) (now : Nat) (m : Msg)
    (h1 : m.type = some "update") :
    handleMsg s now (.msg m)
      = if ignoreUnsolicited s now m.path then some s
        else
          match m.changes with
          | some c => some (applyUpd s now m.path c)
          | none => some s := by
  simp [handleMsg, h1]

theorem handleMsg_unrecognized_eq (s : EngineState) (now : Nat) (m : Msg)
    (h : ∀ t ∈ recognizedKinds, m.type ≠ some t) :
    handleMsg s now (.msg m) = some s := by
  have h1 := h "discover.response" (by simp [recognizedKinds])
  have h2 := h "subscribe.response" (by simp [recognizedKinds])
  have h3 := h "unsubscribe.response" (by simp [recognizedKinds])
  have h4 := h "state" (by simp [recognizedKinds])
  have h5 := h "update" (by simp [recognizedKinds])
  simp [handleMsg, h1, h2, h3, h4, h5]

theorem mergeUpdate_history_append_only (s : EngineState) (now : Nat)
    (name : Option String) (payload : Val) (rep : Bool) (q : Option String)
    (f : String) :
    ∃ suf, (mergeUpdate s now name payload rep).history q f
      = s.history q f ++ suf := by
  cases payload with
  | dict ps =>
    rw [mergeUpdate_dict_history]
    by_cases hq : q = name
    · exact ⟨(ps.filter (fun kv => kv.1 = f)).map (fun kv => (now, kv.2)),
        by simp [hq, histAppend_filter]⟩
    · exact ⟨[], by simp [hq]⟩
  | str a => exact ⟨[], by simp [mergeUpdate]⟩
  | num a => exact ⟨[], by simp [mergeUpdate]⟩
  | boolean a => exact ⟨[], by simp [mergeUpdate]⟩
  | null => exact ⟨[], by simp [mergeUpdate]⟩
  | arr a => exact ⟨[], by simp [mergeUpdate]⟩

theorem handleMsg_history_append_only (s : EngineState) (now : Nat)
    (line : RawLine) (s' : EngineState) (h : handleMsg s now line = some s')
    (q : Option String) (f : String) :
    ∃ suf, s'.history q f = s.history q f ++ suf := by
  cases line with
  | malformed =>
    simp only [handleMsg] at h
    cases h
    exact ⟨[], by simp⟩
  | nonObject =>
    simp only [handleMsg] at h
    cases h
  | msg m =>
    by_cases h1 : m.type = some "discover.response"
    · rw [handleMsg_discover_eq s now m h1] at h
      by_cases h2 : truthyOpt m.found = true
      · rw [if_pos h2] at h
        cases hsc : m.schema with
        | none =>
          rw [hsc] at h
          cases h
          exact ⟨[], by simp⟩
        | some sv =>
          rw [hsc] at h
          cases sv with
          | dict d =>
            cases h
            exact ⟨[], by simp⟩
          | str a => cases h
          | num a => cases h
          | boolean a => cases h
          | null => cases h
          | arr a => cases h
      · rw [if_neg h2] at h
        cases h
        exact ⟨[], by simp⟩
    · by_cases h2 : m.type = some "subscribe.response"
      · rw [handleMsg_subresp_eq s now m h2] at h
        cases h
        exact ⟨[], by simp⟩
      · by_cases h3 : m.type = some "unsubscribe.response"
        · rw [handleMsg_unsubresp_eq s now m h3] at h
          cases h
          exact ⟨[], by simp⟩
        · by_cases h4 : m.type = some "state"
          · rw [handleMsg_state_eq s now m h4] at h
            cases hv : m.value with
            | some v =>
              rw [hv] at h
              cases h
              exact mergeUpdate_history_append_only s now m.path v true q f
            | none =>
              rw [hv] at h
              cases hc : m.changes with
              | some c =>
                rw [hc] at h
                cases h
                exact mergeUpdate_history_append_only s now m.path c false q f
              | none =>
                rw [hc] at h
                cases h
                exact ⟨[], by simp⟩
          · by_cases h5 : m.type = some "update"
            · rw [handleMsg_update_eq s now m h5] at h
              by_cases hig : ignoreUnsolicited s now m.path = true
              · rw [if_pos hig] at h
                cases h
                exact ⟨[], by simp⟩
              · rw [if_neg hig] at h
                cases hc : m.changes with
                | some c =>
                  rw [hc] at h
                  cases h
                  exact mergeUpdate_history_append_only (eraseExp s m.path) now
                    m.path c false q f
                | none =>
                  rw [hc] at h
                  cases h
                  exact ⟨[], by simp⟩
            · have hr : ∀ t ∈ recognizedKinds, m.type ≠ some t := by
                intro t ht
                simp only [recognizedKinds, List.mem_cons, List.mem_singleton] at ht
                rcases ht with rfl | rfl | rfl | rfl | rfl | ht
                · exact h1
                · exact h2
                · exact h3
                · exact h4
                · exact h5
                · cases ht
              rw [handleMsg_unrecognized_eq s now m hr] at h
              cases h
              exact ⟨[], by simp⟩

theorem processLine_history_append_only (s : EngineState) (now : Nat)
    (line : RawLine) (q : Option String) (f : String) :
    ∃ suf, (processLine s now line).history q f = s.history q f ++ suf := by
  cases hh : handleMsg s now line with
  | none => exact ⟨[], by simp [processLine, hh]⟩
  | some s' =>
    obtain ⟨suf, hs⟩ := handleMsg_history_append_only s now line s' hh q f
    exact ⟨suf, by simp [processLine, hh, hs]⟩

theorem processLine_updLine (s : EngineState) (t : Nat) (p : Option String)
    (c : List (String × Val)) (hsub : pmem p s.subscriptions = true) :
    processLine s t (updateChangesLine p (Val.dict c))
      = applyUpd s t p (Val.dict c) := by
  have hig : ignoreUnsolicited s t p = false := by
    simp [ignoreUnsolicited, hsub]
  simp [processLine, handleMsg, updateChangesLine, hig]

theorem applyUpd_dict_history_len (s : EngineState) (t : Nat)
    (p : Option String) (c : List (String × Val)) (f : String)
    (hnd : (c.map Prod.fst).Nodup) :
    ((applyUpd s t p (Val.dict c)).history p f).length
      = (s.history p f).length + (if f ∈ c.map Prod.fst then 1 else 0) :=
  mergeUpdate_dict_history_len (eraseExp s p) t p c false f hnd

theorem processTimeline_deltas (p : Option String) (f : String) :
    ∀ (ds : List (Nat × List (String × Val))) (s : EngineState),
      pmem p s.subscriptions = true →
      (∀ d ∈ ds, (d.2.map Prod.fst).Nodup) →
      ((processTimeline s
          (ds.map fun d => (d.1, updateChangesLine p (Val.dict d.2)))).history
            p f).length
        = (s.history p f).length
          + (ds.filter (fun d => decide (f ∈ d.2.map Prod.fst))).length := by
  intro ds
  induction ds with
  | nil =>
    intro s hs hnd
    simp [processTimeline]
  | cons d rest ih =>
    intro s hs hnd
    obtain ⟨t, c⟩ := d
    simp only [List.map_cons, processTimeline]
    rw [processLine_updLine s t p c hs]
    have hs' : pmem p (applyUpd s t p (Val.dict c)).subscriptions = true := by
      rw [applyUpd_subscriptions]
      exact hs
    rw [ih (applyUpd s t p (Val.dict c)) hs'
      (fun d hd => hnd d (List.mem_cons_of_mem _ hd))]
    rw [applyUpd_dict_history_len s t p c f (hnd (t, c) (List.mem_cons_self _ _))]
    rw [List.filter_cons]
    by_cases hf : f ∈ c.map Prod.fst
    · simp [hf]
      omega
    · simp [hf]
  
theorem mergeUpdate_state_subscriptions (s : EngineState) (now : Nat)
    (p : Option String) (v : Val) :
    (mergeUpdate s now p v true).subscriptions = s.subscriptions :=
  mergeUpdate_subscriptions s now p v true

/-- C4: Cache/history consistency of _merge_update_and_refresh and the
processing loop.  (i) An applied mapping payload appends to the path's
history, per field, exactly the matching pairs of the payload; (ii) with
the payload's keys unique (as in a parsed JSON object), a field given in
the payload gains exactly one entry holding its value; (iii) a field not
given gains none, and (iv) other paths' histories are untouched; (v) an
applied non-mapping payload appends nothing; (vi) histories only ever grow
by suffixes under every processed line (append-only, never truncated);
(vii) after a full snapshot and N admitted delta messages for a
subscribed path, a field's history has grown by N' + 1 entries, where N'
counts the deltas touching the field, plus one iff the snapshot covered
it. -/
theorem C4_cache_history_consistency :
    (∀ (s : EngineState) (now : Nat) (name : Option String)
       (ps : List (String × Val)) (rep : Bool) (f : String),
       (mergeUpdate s now name (Val.dict ps) rep).history name f
         = s.history name f
           ++ (ps.filter (fun kv => kv.1 = f)).map (fun kv => (now, kv.2)))
  ∧ (∀ (s : EngineState) (now : Nat) (name : Option String)
       (ps : List (String × Val)) (rep : Bool) (f : String) (v : Val),
       (ps.map Prod.fst).Nodup → (f, v) ∈ ps →
       (mergeUpdate s now name (Val.dict ps) rep).history name f
         = s.history name f ++ [(now, v)])
  ∧ (∀ (s : EngineState) (now : Nat) (name : Option String)
       (ps : List (String × Val)) (rep : Bool) (f : String),
       f ∉ ps.map Prod.fst →
       (mergeUpdate s now name (Val.dict ps) rep).history name f
         = s.history name f)
  ∧ (∀ (s : EngineState) (now : Nat) (name : Option String)
       (ps : List (String × Val)) (rep : Bool) (q : Option String),
       q ≠ name →
       (mergeUpdate s now name (Val.dict ps) rep).history q = s.history q)
  ∧ (∀ (s : EngineState) (now : Nat) (name : Option String) (c : Val)
       (rep : Bool), (∀ d, c ≠ Val.dict d) →
       (mergeUpdate s now name c rep).history = s.history)
  ∧ (∀ (s : EngineState) (now : Nat) (line : RawLine) (q : Option String)
       (f : String),
       ∃ suf, (processLine s now line).history q f = s.history q f ++ suf)
  ∧ (∀ (s : EngineState) (p : Option String) (f : String) (t0 : Nat)
       (v : List (String × Val)) (ds : List (Nat × List (String × Val))),
       pmem p s.subscriptions = true →
       (v.map Prod.fst).Nodup →
       (∀ d ∈ ds, (d.2.map Prod.fst).Nodup) →
       ((processTimeline s ((t0, stateValueLine p (Val.dict v))
           :: ds.map (fun d => (d.1, updateChangesLine p (Val.dict d.2))))).history
             p f).length
         = (s.history p f).length
           + (if f ∈ v.map Prod.fst then 1 else 0)
           + (ds.filter (fun d => decide (f ∈ d.2.map Prod.fst))).length) := by
  refine ⟨?_, ?_, ?_, ?_, ?_, ?_, ?_⟩
  · intro s now name ps rep f
    rw [mergeUpdate_dict_history]
    simp [histAppend_filter]
  · intro s now name ps rep f v hnd hv
    rw [mergeUpdate_dict_history]
    simp [histAppend_filter, filter_key_eq_single ps f v hnd hv]
  · intro s now name ps rep f hf
    rw [mergeUpdate_dict_history]
    simp [histAppend_filter, filter_key_eq_nil ps f hf]
  · intro s now name ps rep q hq
    rw [mergeUpdate_dict_history]
    simp [hq]
  · intro s now name c rep hc
    rw [mergeUpdate_not_dict s now name c rep hc]
  · exact processLine_history_append_only
  · intro s p f t0 v ds hsub hndv hnds
    simp only [processTimeline]
    have hline : processLine s t0 (stateValueLine p (Val.dict v))
        = mergeUpdate s t0 p (Val.dict v) true := by
      simp [processLine, handleMsg, stateValueLine]
    rw [hline]
    have hsub' : pmem p (mergeUpdate s t0 p (Val.dict v) true).subscriptions
        = true := by
      rw [mergeUpdate_subscriptions]
      exact hsub
    rw [processTimeline_deltas p f ds (mergeUpdate s t0 p (Val.dict v) true)
      hsub' hnds]
    rw [mergeUpdate_dict_history_len s t0 p v true f hndv]

/-- C4 witness: the counting property at a concrete run — a snapshot
covering power, then two admitted deltas touching power and one not — and
the per-field exactness at a concrete payload, hypotheses discharged. -/
theorem C4_cache_history_consistency_witness :
    ((processTimeline c1wState
        ((1, stateValueLine (some "laser") (Val.dict [("power", Val.num 1)]))
          :: [(2, [("power", Val.num 2)]), (3, [("mode", Val.num 0)]),
              (4, [("power", Val.num 3)])].map
              (fun d => (d.1, updateChangesLine (some "laser")
                (Val.dict d.2))))).history (some "laser") "power").length
      = (c1wState.history (some "laser") "power").length
        + (if "power" ∈ [("power", Val.num 1)].map Prod.fst then 1 else 0)
        + ([(2, [("power", Val.num 2)]), (3, [("mode", Val.num 0)]),
            (4, [("power", Val.num 3)])].filter
            (fun d => decide ("power" ∈ d.2.map Prod.fst))).length
    ∧ (mergeUpdate c1wState 9 (some "laser")
          (Val.dict [("power", Val.num 5)]) false).history (some "laser") "power"
        = c1wState.history (some "laser") "power" ++ [(9, Val.num 5)] :=
  ⟨C4_cache_history_consistency.2.2.2.2.2.2 c1wState (some "laser") "power" 1
      [("power", Val.num 1)]
      [(2, [("power", Val.num 2)]), (3, [("mode", Val.num 0)]),
       (4, [("power", Val.num 3)])]
      (by decide) (by simp) (by intro d hd; fin_cases hd <;> simp),
   C4_cache_history_consistency.2.1 c1wState 9 (some "laser")
      [("power", Val.num 5)] false "power" (Val.num 5) (by simp) (by simp)⟩

theorem mem_of_head? {α : Type} {l : List α} {a : α} (h : l.head? = some a) :
    a ∈ l := by
  cases l with
  | nil => cases h
  | cons x xs =>
    simp only [List.head?] at h
    cases h
    exact List.mem_cons_self _ _

theorem strictInc_cons (a : Nat) (L : List Nat) (hL : strictInc L = true)
    (hhead : ∀ b, L.head? = some b → a < b) : strictInc (a :: L) = true := by
  cases L with
  | nil => rfl
  | cons b rest => simp [strictInc, hL, hhead b rfl]

theorem nonDec_cons (a : Nat) (L : List Nat) (hL : nonDec L = true)
    (hhead : ∀ b, L.head? = some b → a ≤ b) : nonDec (a :: L) = true := by
  cases L with
  | nil => rfl
  | cons b rest => simp [nonDec, hL, hhead b rfl]

theorem delays_head_lb (sched : List (Nat × String × String)) (d : Nat)
    (hlb : ∀ x ∈ sched, d ≤ x.1) (b : Nat)
    (hb : (delaysOf sched).head? = some b) : d ≤ b := by
  have hmem : b ∈ delaysOf sched := mem_of_head? hb
  obtain ⟨x, hx, rfl⟩ := List.mem_map.mp hmem
  exact hlb x hx

theorem schedulePending_delay_lb :
    ∀ (l : List (String × String)) (d : Nat) (x : Nat × String × String),
      x ∈ schedulePending d l → d ≤ x.1 := by
  intro l
  induction l with
  | nil =>
    intro d x hx
    cases hx
  | cons p rest ih =>
    intro d x hx
    obtain ⟨t, n⟩ := p
    simp only [schedulePending] at hx
    rcases List.mem_append.mp hx with h1 | h2
    · by_cases ht : t = "discover"
      · simp [ht] at h1
        subst h1
        exact Nat.le_refl d
      · by_cases ht2 : t = "get"
        · simp [ht, ht2] at h1
          subst h1
          exact Nat.le_refl d
        · simp [ht, ht2] at h1
    · exact Nat.le_trans (Nat.le_add_right d 50) (ih (d + 50) x h2)

theorem scheduleSubs_delay_lb :
    ∀ (l : List String) (d : Nat) (x : Nat × String × String),
      x ∈ scheduleSubs d l → d ≤ x.1 := by
  intro l
  induction l with
  | nil =>
    intro d x hx
    cases hx
  | cons n rest ih =>
    intro d x hx
    simp only [scheduleSubs, List.mem_cons] at hx
    rcases hx with rfl | rfl | rfl | hx
    · exact Nat.le_refl d
    · exact Nat.le_add_right d 30
    · exact Nat.le_add_right d 80
    · exact Nat.le_trans (Nat.le_add_right d 80) (ih (d + 80) x hx)

theorem scheduleBuiltins_delay_lb :
    ∀ (l : List String) (schemaKnown : String → Bool) (d : Nat)
      (x : Nat × String × String),
      x ∈ scheduleBuiltins schemaKnown d l → d ≤ x.1 := by
  intro l
  induction l with
  | nil =>
    intro sk d x hx
    cases hx
  | cons n rest ih =>
    intro sk d x hx
    simp only [scheduleBuiltins] at hx
    by_cases hk : sk n = true
    · rw [if_pos hk] at hx
      exact ih sk d x hx
    · rw [if_neg hk] at hx
      rcases List.mem_cons.mp hx with rfl | hx2
      · exact Nat.le_refl d
      · rcases List.mem_cons.mp hx2 with rfl | hx3
        · exact Nat.le_add_right d 40
        · exact Nat.le_trans (Nat.le_add_right d 60) (ih sk (d + 60) x hx3)

theorem schedulePending_strictInc :
    ∀ (l : List (String × String)) (d : Nat),
      strictInc (delaysOf (schedulePending d l)) = true := by
  intro l
  induction l with
  | nil => intro d; rfl
  | cons p rest ih =>
    intro d
    obtain ⟨t, n⟩ := p
    have hbound := fun b hb => delays_head_lb (schedulePending (d + 50) rest)
      (d + 50) (schedulePending_delay_lb rest (d + 50)) b hb
    by_cases ht : t = "discover"
    · simp only [schedulePending, ht, if_pos, delaysOf, List.map_append,
        List.map_cons, List.map_nil, List.singleton_append]
      exact strictInc_cons d _ (ih (d + 50))
        (fun b hb => Nat.lt_of_lt_of_le (Nat.lt_add_of_pos_right (by decide))
          (hbound b hb))
    · by_cases ht2 : t = "get"
      · simp only [schedulePending, ht, ht2, if_neg, if_pos, delaysOf,
          List.map_append, List.map_cons, List.map_nil, List.singleton_append]
        exact strictInc_cons d _ (ih (d + 50))
          (fun b hb => Nat.lt_of_lt_of_le (Nat.lt_add_of_pos_right (by decide))
            (hbound b hb))
      · simp only [schedulePending, ht, ht2, delaysOf, List.map_append,
          List.map_cons, List.map_nil]
        simp only [ite_false]
        simpa [delaysOf] using ih (d + 50)

theorem scheduleBuiltins_strictInc :
    ∀ (l : List String) (schemaKnown : String → Bool) (d : Nat),
      strictInc (delaysOf (scheduleBuiltins schemaKnown d l)) = true := by
  intro l
  induction l with
  | nil => intro sk d; rfl
  | cons n rest ih =>
    intro sk d
    have hbound := fun b hb => delays_head_lb (scheduleBuiltins sk (d + 60) rest)
      (d + 60) (scheduleBuiltins_delay_lb rest sk (d + 60)) b hb
    by_cases hk : sk n = true
    · simp only [scheduleBuiltins, hk, if_pos]
      exact ih sk d
    · have hdel : delaysOf (scheduleBuiltins sk d (n :: rest))
          = d :: (d + 40) :: delaysOf (scheduleBuiltins sk (d + 60) rest) := by
        simp [scheduleBuiltins, hk, delaysOf]
      rw [hdel]
      apply strictInc_cons
      · apply strictInc_cons
        · exact ih sk (d + 60)
        · intro b hb
          exact Nat.lt_of_lt_of_le (by omega) (hbound b hb)
      · intro b hb
        simp only [List.head?] at hb
        cases hb
        omega

theorem scheduleSubs_nonDec :
    ∀ (l : List String) (d : Nat),
      nonDec (delaysOf (scheduleSubs d l)) = true := by
  intro l
  induction l with
  | nil => intro d; rfl
  | cons n rest ih =>
    intro d
    have hbound := fun b hb => delays_head_lb (scheduleSubs (d + 80) rest)
      (d + 80) (scheduleSubs_delay_lb rest (d + 80)) b hb
    have hdel : delaysOf (scheduleSubs d (n :: rest))
        = d :: (d + 30) :: (d + 80) :: delaysOf (scheduleSubs (d + 80) rest) := by
      simp [scheduleSubs, delaysOf]
    rw [hdel]
    apply nonDec_cons
    · apply nonDec_cons
      · apply nonDec_cons
        · exact ih (d + 80)
        · intro b hb
          exact Nat.le_trans (by omega) (hbound b hb)
      · intro b hb
        simp only [List.head?] at hb
        cases hb
        omega
    · intro b hb
      simp only [List.head?] at hb
      cases hb
      omega

/-- C5 counterexample: the claim requires the scheduled firing delays of
one reconnect burst, in submission order, to be strictly increasing (order
preserving, no two at the same instant).  With no queued startup requests,
two restored subscriptions a and b, and both builtin schemas already
cached, connect schedules delays 50, 80, 130, 130, 160, 210: the get for a
and the subscribe for b fire at the same instant 130. -/
theorem C5_throttle_counterexample :
    delaysOf (connectSchedule [] ["a", "b"] (fun _ => true))
        = [50, 80, 130, 130, 160, 210]
    ∧ strictInc (delaysOf (connectSchedule [] ["a", "b"] (fun _ => true)))
        = false := by
  constructor
  · rfl
  · rfl

/-- C5 amended: within the queued-startup group and within the builtin
group the scheduled delays strictly increase in submission order; within
the restored-subscriptions group they are only non-decreasing — each
subscription's own subscribe/discover/get triple strictly increases, but
the get of one subscription is scheduled at the same instant as the
subscribe of the next (delay + 80 is both the triple's last offset and the
step), and the groups run on separate delay counters (startup and
subscriptions restart at 50, builtins at 30), so neither strict increase
nor cross-group submission order holds for the whole burst. -/
theorem C5_throttle_amended :
    (∀ (pending : List (String × String)) (d : Nat),
       strictInc (delaysOf (schedulePending d pending)) = true)
  ∧ (∀ (schemaKnown : String → Bool) (names : List String) (d : Nat),
       strictInc (delaysOf (scheduleBuiltins schemaKnown d names)) = true)
  ∧ (∀ (subs : List String) (d : Nat),
       nonDec (delaysOf (scheduleSubs d subs)) = true)
  ∧ (∀ (d : Nat) (a b : String) (rest : List String),
       (delaysOf (scheduleSubs d (a :: b :: rest))).take 4
         = [d, d + 30, d + 80, d + 80]) := by
  refine ⟨?_, ?_, ?_, ?_⟩
  · intro pending d
    exact schedulePending_strictInc pending d
  · intro schemaKnown names d
    exact scheduleBuiltins_strictInc names schemaKnown d
  · intro subs d
    exact scheduleSubs_nonDec subs d
  · intro d a b rest
    simp [scheduleSubs, delaysOf]

theorem send_not_connected (s : EngineState) (now : Nat) (m : Msg)
    (h : s.connected = false) : send s now m = s := by
  simp [send, h]

theorem send_subscriptions (s : EngineState) (now : Nat) (m : Msg) :
    (send s now m).subscriptions = s.subscriptions := by
  by_cases h : s.connected = false
  · rw [send_not_connected s now m h]
  · simp only [send, if_neg h]
    cases hty : m.type with
    | none => rfl
    | some t =>
      cases hpa : m.path with
      | none => rfl
      | some p =>
        by_cases hc : (t = "discover" ∨ t = "get" ∨ t = "subscribe") ∧ p ≠ ""
        · simp [hc]
        · simp [hc]

/-- C6: Command-emitter contract of _send.  With the link closed the call
is a no-op on the whole engine state (no line written, expectation window
untouched).  With the link open, a discover, get or subscribe carrying a
non-empty path writes the line and sets the path's expectation expiry to
now + 3, overwriting any previous entry and touching no other path; a
set, delete or unsubscribe writes the line and leaves the expectation
window entirely unchanged. -/
theorem C6_command_emitter :
    (∀ (s : EngineState) (now : Nat) (m : Msg),
       s.connected = false → send s now m = s)
  ∧ (∀ (s : EngineState) (now : Nat) (m : Msg) (t p : String),
       s.connected = true → m.type = some t →
       (t = "discover" ∨ t = "get" ∨ t = "subscribe") → m.path = some p →
       p ≠ "" →
       (send s now m).expecting (some p) = some (now + 3)
       ∧ (∀ q, q ≠ some p → (send s now m).expecting q = s.expecting q)
       ∧ (send s now m).wire = s.wire ++ [m])
  ∧ (∀ (s : EngineState) (now : Nat) (m : Msg) (t : String),
       s.connected = true → m.type = some t →
       (t = "set" ∨ t = "delete" ∨ t = "unsubscribe") →
       (send s now m).expecting = s.expecting
       ∧ (send s now m).wire = s.wire ++ [m]) := by
  refine ⟨?_, ?_, ?_⟩
  · intro s now m h
    exact send_not_connected s now m h
  · intro s now m t p hc hty htrio hpath hp
    have hcf : ¬ (s.connected = false) := by simp [hc]
    rcases htrio with rfl | rfl | rfl <;>
      exact ⟨by simp [send, hcf, hty, hpath, hp],
        fun q hq => by simp [send, hcf, hty, hpath, hp, hq],
        by simp [send, hcf, hty, hpath, hp]⟩
  · intro s now m t hc hty htrio
    have hcf : ¬ (s.connected = false) := by simp [hc]
    rcases htrio with rfl | rfl | rfl <;>
      cases hpa : m.path <;>
        exact ⟨by simp [send, hcf, hty, hpa], by simp [send, hcf, hty, hpa]⟩

/-- A connected engine state for witnesses. -/
def connState : EngineState := { emptyState with connected := true }

/-- C6 witness: the contract at concrete states and messages. -/
theorem C6_command_emitter_witness :
    send emptyState 4 (discoverMsg "laser") = emptyState
    ∧ (send connState 4 (discoverMsg "laser")).expecting (some "laser")
        = some (4 + 3)
    ∧ (send connState 4
          { id := some "unsub-laser", type := some "unsubscribe",
            path := some "laser" }).expecting = connState.expecting :=
  ⟨C6_command_emitter.1 emptyState 4 (discoverMsg "laser") rfl,
   (C6_command_emitter.2.1 connState 4 (discoverMsg "laser") "discover" "laser"
      rfl rfl (Or.inl rfl) rfl (by decide)).1,
   (C6_command_emitter.2.2 connState 4
      { id := some "unsub-laser", type := some "unsubscribe",
        path := some "laser" } "unsubscribe" rfl rfl (Or.inr (Or.inr rfl))).1⟩

/-- C8: Per-message failure isolation of _process_incoming and
_handle_message.  A line that is not well-formed JSON is dropped with the
whole state (cache, history, subscriptions, expectation window included)
unchanged; a well-formed message with an unrecognized type is accepted and
ignored with no state change; and in any drained batch, a line whose
handling raises leaves the state unchanged and the remaining lines of the
batch are still processed. -/
theorem C8_failure_isolation :
    (∀ (s : EngineState) (now : Nat), processLine s now RawLine.malformed = s)
  ∧ (∀ (s : EngineState) (now : Nat) (m : Msg),
       (∀ t ∈ recognizedKinds, m.type ≠ some t) →
       handleMsg s now (RawLine.msg m) = some s)
  ∧ (∀ (s : EngineState) (now : Nat) (pre post : List RawLine) (bad : RawLine),
       handleMsg (processIncoming s now pre) now bad = none →
       processIncoming s now (pre ++ bad :: post)
         = processIncoming (processIncoming s now pre) now post) := by
  refine ⟨?_, ?_, ?_⟩
  · intro s now
    rfl
  · intro s now m h
    exact handleMsg_unrecognized_eq s now m h
  · intro s now pre post bad hbad
    have hstep : processLine (processIncoming s now pre) now bad
        = processIncoming s now pre := by
      simp [processLine, hbad]
    simp only [processIncoming] at hstep ⊢
    rw [List.foldl_append, List.foldl_cons, hstep]

/-- C8 witness: an unrecognized type is ignored at a concrete state, and a
batch containing a line whose handling raises (a well-formed non-object
line) still processes the rest. -/
theorem C8_failure_isolation_witness :
    handleMsg emptyState 5 (RawLine.msg { type := some "bogus" })
        = some emptyState
    ∧ processIncoming emptyState 5 ([] ++ RawLine.nonObject :: [RawLine.malformed])
        = processIncoming (processIncoming emptyState 5 []) 5
            [RawLine.malformed] :=
  ⟨C8_failure_isolation.2.1 emptyState 5 { type := some "bogus" } (by decide),
   C8_failure_isolation.2.2 emptyState 5 [] [RawLine.malformed]
     RawLine.nonObject rfl⟩

/-- C9: An update that passes the admission check but carries no changes
field is a complete no-op — the returned state is the input state, so the
expectation entry is in particular not consumed — while an admitted
update with a changes field always deletes the expectation entry for its
path. -/
theorem C9_update_without_changes (s : EngineState) (now : Nat)
    (p : Option String) (hadm : ignoreUnsolicited s now p = false) :
    handleMsg s now (RawLine.msg { type := some "update", path := p }) = some s
    ∧ ∀ c : Val,
        (processLine s now (updateChangesLine p c)).expecting p = none := by
  constructor
  · simp [handleMsg, hadm]
  · intro c
    have h2 : processLine s now (updateChangesLine p c) = applyUpd s now p c := by
      simp [processLine, handleMsg, updateChangesLine, hadm]
    rw [h2]
    have h3 : (applyUpd s now p c).expecting = (eraseExp s p).expecting := by
      cases c <;> rfl
    rw [h3]
    simp [eraseExp]

/-- C9 witness: at a subscribed concrete state, the changes-free update is
the identity and the update with changes consumes the expectation entry. -/
theorem C9_update_without_changes_witness :
    handleMsg c1wState 5 (RawLine.msg { type := some "update", path := some "laser" })
        = some c1wState
    ∧ (processLine c1wState 5
        (updateChangesLine (some "laser")
          (Val.dict [("power", Val.num 1)]))).expecting (some "laser") = none :=
  ⟨(C9_update_without_changes c1wState 5 (some "laser") (by decide)).1,
   (C9_update_without_changes c1wState 5 (some "laser") (by decide)).2
     (Val.dict [("power", Val.num 1)])⟩

theorem pmem_addSub (l : List String) (n : String) :
    pmem (some n) (addSub l n) = true := by
  simp only [pmem, addSub]
  by_cases h : n ∈ l
  · simp [h]
  · simp [h]

/-- C10: on_subscribe adds the path to the subscription set (and persists
it) before and regardless of the send outcome: with the link closed, no
line is written and the expectation window, cache and history are
untouched, yet the path is subscribed locally, its subscription list is
the one saved to config, and every later update for it passes the strict
admission check. -/
theorem C10_subscribe_local_state (s : EngineState) (now : Nat)
    (name : String) (hname : name ≠ "") :
    pmem (some name) (on_subscribe s now name).subscriptions = true
    ∧ (s.connected = false →
        (on_subscribe s now name).wire = s.wire
        ∧ (on_subscribe s now name).expecting = s.expecting
        ∧ (on_subscribe s now name).states = s.states
        ∧ (on_subscribe s now name).history = s.history
        ∧ (on_subscribe s now name).savedSubs = addSub s.subscriptions name
        ∧ ∀ now', ignoreUnsolicited (on_subscribe s now name) now' (some name)
            = false) := by
  have hsubs : (on_subscribe s now name).subscriptions
      = addSub s.subscriptions name := by
    simp only [on_subscribe, if_neg hname]
    rw [send_subscriptions]
    rw [show (({ send { s with subscriptions := addSub s.subscriptions name }
        now (subscribeMsg name) with
        savedSubs := (send { s with subscriptions := addSub s.subscriptions name }
          now (subscribeMsg name)).subscriptions } : EngineState)).subscriptions
      = (send { s with subscriptions := addSub s.subscriptions name }
          now (subscribeMsg name)).subscriptions from rfl]
    rw [send_subscriptions]
  have hadm : ∀ now', ignoreUnsolicited (on_subscribe s now name) now'
      (some name) = false := by
    intro now'
    simp [ignoreUnsolicited, hsubs, pmem_addSub]
  refine ⟨by rw [hsubs]; exact pmem_addSub s.subscriptions name, ?_⟩
  intro hconn
  have heq : on_subscribe s now name
      = { s with subscriptions := addSub s.subscriptions name,
                 savedSubs := addSub s.subscriptions name } := by
    simp only [on_subscribe, if_neg hname]
    have e1 : send { s with subscriptions := addSub s.subscriptions name } now
        (subscribeMsg name)
        = { s with subscriptions := addSub s.subscriptions name } :=
      send_not_connected _ _ _ hconn
    simp only [e1]
    exact send_not_connected _ _ _ hconn
  rw [heq] at hadm ⊢
  exact ⟨rfl, rfl, rfl, rfl, rfl, hadm⟩

/-- C10 witness: subscribing to laser on the disconnected fresh state. -/
theorem C10_subscribe_local_state_witness :
    pmem (some "laser") (on_subscribe emptyState 2 "laser").subscriptions = true
    ∧ (on_subscribe emptyState 2 "laser").wire = emptyState.wire
    ∧ (on_subscribe emptyState 2 "laser").expecting = emptyState.expecting :=
  ⟨(C10_subscribe_local_state emptyState 2 "laser" (by decide)).1,
   ((C10_subscribe_local_state emptyState 2 "laser" (by decide)).2 rfl).1,
   ((C10_subscribe_local_state emptyState 2 "laser" (by decide)).2 rfl).2.1⟩

theorem dropWS_head_false :
    ∀ (l : List Char) (c : Char) (cs : List Char),
      dropWS l = c :: cs → isPySpace c = false := by
  intro l
  induction l with
  | nil =>
    intro c cs h
    cases h
  | cons a as ih =>
    intro c cs h
    by_cases ha : isPySpace a = true
    · simp only [dropWS, if_pos ha] at h
      exact ih c cs h
    · simp only [dropWS, if_neg ha] at h
      cases h
      simpa using ha

theorem dropWS_eq_self (l : List Char)
    (h : ∀ c cs, l = c :: cs → isPySpace c = false) : dropWS l = l := by
  cases l with
  | nil => rfl
  | cons a as => simp [dropWS, h a as rfl]

theorem dropWS_idem (l : List Char) : dropWS (dropWS l) = dropWS l := by
  cases hd : dropWS l with
  | nil => rfl
  | cons c cs =>
    apply dropWS_eq_self
    intro c' cs' h'
    cases h'
    exact dropWS_head_false l c cs hd

theorem dropWS_suffix (l : List Char) : ∃ pre, l = pre ++ dropWS l := by
  induction l with
  | nil => exact ⟨[], rfl⟩
  | cons a as ih =>
    by_cases ha : isPySpace a = true
    · obtain ⟨pre, hp⟩ := ih
      refine ⟨a :: pre, ?_⟩
      simp only [dropWS, if_pos ha, List.cons_append]
      exact congrArg (a :: ·) hp
    · exact ⟨[], by simp [dropWS, ha]⟩

theorem dropWS_rev_dropWS_head (l : List Char) (c : Char) (cs : List Char)
    (h : (dropWS (dropWS l).reverse).reverse = c :: cs) :
    isPySpace c = false := by
  obtain ⟨pre, hp⟩ := dropWS_suffix (dropWS l).reverse
  have h2 : dropWS l = (dropWS (dropWS l).reverse).reverse ++ pre.reverse := by
    have h3 := congrArg List.reverse hp
    simpa using h3
  rw [h] at h2
  exact dropWS_head_false l c (cs ++ pre.reverse) (by simpa using h2)

theorem dropWS_pyStrip (l : List Char) : dropWS (pyStrip l) = pyStrip l := by
  apply dropWS_eq_self
  intro c cs h
  exact dropWS_rev_dropWS_head l c cs h

theorem pyStrip_idem (l : List Char) : pyStrip (pyStrip l) = pyStrip l := by
  show (dropWS (dropWS (pyStrip l)).reverse).reverse = pyStrip l
  rw [dropWS_pyStrip]
  show (dropWS ((dropWS (dropWS l).reverse).reverse).reverse).reverse = pyStrip l
  rw [List.reverse_reverse, dropWS_idem]
  rfl

theorem readerRun_lines (input : List Char) :
    ∀ (buf : List Char) (l : List Char), l ∈ (readerRun buf input).2 →
      l ≠ [] ∧ pyStrip l = l := by
  induction input with
  | nil =>
    intro buf l hl
    simp [readerRun] at hl
  | cons c cs ih =>
    intro buf l hl
    simp only [readerRun] at hl
    rcases List.mem_append.mp hl with h1 | h2
    · by_cases hc : c = '\n'
      · simp only [readerStep, if_pos hc] at h1
        by_cases he : (pyStrip buf).isEmpty = true
        · rw [if_pos he] at h1
          cases h1
        · rw [if_neg he] at h1
          have hlb : l = pyStrip buf := by simpa using h1
          subst hlb
          refine ⟨?_, pyStrip_idem buf⟩
          intro hnil
          exact he (by rw [hnil]; rfl)
      · simp only [readerStep, if_neg hc] at h1
        by_cases hlen : 4000 < buf.length + 1
        · simp [hlen] at h1
        · simp [hlen] at h1
    · exact ih _ l h2

theorem readerRun_append (xs ys : List Char) :
    ∀ buf, readerRun buf (xs ++ ys)
      = ((readerRun (readerRun buf xs).1 ys).1,
         (readerRun buf xs).2 ++ (readerRun (readerRun buf xs).1 ys).2) := by
  induction xs with
  | nil =>
    intro buf
    simp [readerRun]
  | cons c cs ih =>
    intro buf
    simp only [List.cons_append, readerRun, List.append_eq]
    rw [ih (readerStep buf c).1]
    simp [List.append_assoc]

theorem readerRun_no_newline (cs : List Char) :
    ∀ buf, '\n' ∉ cs → buf.length + cs.length ≤ 4000 →
      readerRun buf cs = (buf ++ cs, []) := by
  induction cs with
  | nil =>
    intro buf h1 h2
    simp [readerRun]
  | cons c rest ih =>
    intro buf h1 h2
    have hc : c ≠ '\n' := by
      intro hh
      subst hh
      exact h1 (List.mem_cons_self _ _)
    have hc' : ¬ (c = '\n') := hc
    simp only [readerRun, readerStep, if_neg hc']
    have hlen : ¬ (4000 < (buf ++ [c]).length) := by
      simp only [List.length_append, List.length_cons, List.length_nil]
      simp only [List.length_cons] at h2
      omega
    rw [if_neg hlen]
    rw [ih (buf ++ [c]) (fun hm => h1 (List.mem_cons_of_mem _ hm))
      (by simp only [List.length_append, List.length_cons, List.length_nil]
          simp only [List.length_cons] at h2
          omega)]
    simp

theorem readerRun_overflow (cs : List Char) :
    ∀ buf, '\n' ∉ cs → buf.length ≤ 4000 → buf.length + cs.length = 4001 →
      readerRun buf cs = ([], []) := by
  induction cs with
  | nil =>
    intro buf h1 h2 h3
    simp only [List.length_nil] at h3
    omega
  | cons c rest ih =>
    intro buf h1 h2 h3
    have hc : c ≠ '\n' := by
      intro hh
      subst hh
      exact h1 (List.mem_cons_self _ _)
    have hc' : ¬ (c = '\n') := hc
    simp only [readerRun, readerStep, if_neg hc']
    by_cases hlen : 4000 < (buf ++ [c]).length
    · rw [if_pos hlen]
      have hbl : 4000 < buf.length + 1 := by
        simpa using hlen
      have hrest : rest = [] := by
        simp only [List.length_cons] at h3
        have : rest.length = 0 := by omega
        exact List.eq_nil_of_length_eq_zero this
      subst hrest
      simp [readerRun]
    · rw [if_neg hlen]
      have hbl : ¬ (4000 < buf.length + 1) := by
        simpa using hlen
      rw [ih (buf ++ [c]) (fun hm => h1 (List.mem_cons_of_mem _ hm))
        (by simp only [List.length_append, List.length_cons, List.length_nil]
            omega)
        (by simp only [List.length_append, List.length_cons, List.length_nil]
            simp only [List.length_cons] at h3
            omega)]
      simp

/-- C7: Line framer contract of _reader.  Every emitted line is non-empty
and whitespace-trimmed; empty input emits nothing; and a run of 4001
non-newline characters is silently discarded when it crosses the
4000-character ceiling, after which accumulation resumes cleanly, so that
a following newline-terminated valid line (of buffer-fitting length) is
the only line emitted. -/
theorem C7_line_framer :
    (∀ (input l : List Char), l ∈ framer input → l ≠ [] ∧ pyStrip l = l)
  ∧ (∀ (cs ls : List Char), cs.length = 4001 → '\n' ∉ cs → '\n' ∉ ls →
       ls.length ≤ 4000 → pyStrip ls ≠ [] →
       framer (cs ++ (ls ++ ['\n'])) = [pyStrip ls])
  ∧ framer [] = [] := by
  refine ⟨?_, ?_, rfl⟩
  · intro input l hl
    exact readerRun_lines input [] l hl
  · intro cs ls hlen hncs hnls hlslen hstrip
    have h1 : readerRun [] cs = ([], []) :=
      readerRun_overflow cs [] hncs (by simp) (by simpa using hlen)
    have h2 : readerRun [] ls = (ls, []) :=
      readerRun_no_newline ls [] hnls (by simpa using hlslen)
    have h3 : readerRun ls ['\n'] = ([], [pyStrip ls]) := by
      have hne : (pyStrip ls).isEmpty = false := by
        cases hps : pyStrip ls with
        | nil => exact absurd hps hstrip
        | cons a b => rfl
      simp only [readerRun, readerStep, if_pos rfl, hne]
      rfl
    show (readerRun [] (cs ++ (ls ++ ['\n']))).2 = [pyStrip ls]
    rw [readerRun_append cs (ls ++ ['\n']) [], h1]
    show (readerRun [] (ls ++ ['\n'])).2 = [pyStrip ls]
    rw [readerRun_append ls ['\n'] [], h2]
    show (readerRun ls ['\n']).2 = [pyStrip ls]
    rw [h3]

/-- C7 witness: 4001 junk characters followed by a newline-terminated
line hi emit exactly that line, and empty input emits nothing. -/
theorem C7_line_framer_witness :
    framer (List.replicate 4001 'x' ++ (['h', 'i'] ++ ['\n']))
        = [pyStrip ['h', 'i']]
    ∧ framer [] = [] :=
  ⟨C7_line_framer.2.1 (List.replicate 4001 'x') ['h', 'i']
      (by rw [List.length_replicate])
      (by intro hm; exact absurd (List.eq_of_mem_replicate hm) (by decide))
      (by decide) (by decide) (by decide),
   C7_line_framer.2.2⟩
